import Mathlib

/-!
Verification of the frame-rate normalization pipeline of `src/parse.py`
(`ImageTopicHandler` and `process_bag`).

The embedding below is a shallow translation of the Python source:

* Timestamps and the period are Python `int`s (arbitrary precision), hence `Int`.
* A decoded raster is abstracted as its dimensions plus an opaque content id
  (`Raster`); `cv_bridge.imgmsg_to_cv2` together with `cv2.cvtColor` is the
  external Frame Source Decoder, modelled by the `decoded` field of `Msg`
  (`none` models the decoder raising an exception).
* One `Row` corresponds to one emission: one `cv2.VideoWriter.write` call
  (the `pixels` field) plus one sidecar CSV row
  (`frame_index`, `video_timestamp_ns`, `source_timestamp_ns`, `is_repeat`),
  which the source always performs back to back.
* The `while` loop of `emit_frozen_frames_until` is embedded with an explicit
  fuel parameter; the wrapper passes fuel that provably dominates the number
  of iterations whenever `0 < period_ns` (`fuel_bound` below), so the fuel
  branch is never the exit path taken.
* Python exceptions are `Except`: `Err.decode_error` models the decoder
  raising, `Err.type_error` models arithmetic on a `None` field (unreachable
  from the initial state).  `cv2.VideoWriter` construction is external and is
  modelled as always succeeding; the writer itself is modelled by the frame
  geometry it was opened with, which is all `init_writer_if_needed` fixes.
* `process_bag` is modelled restricted to a single image topic: the reader
  loop feeds messages in order with no exception handler, and the
  `handler.close()` loop runs only after the reader loop finishes normally.
-/

/-- A decoded raster frame: its dimensions (`sample_bgr.shape[:2]` in the
source) plus an opaque content identifier standing for the pixel buffer. -/
structure Raster where
  height : Nat
  width : Nat
  data : Nat
deriving DecidableEq, Repr

/-- One record delivered to `ImageTopicHandler.handle_msg`: the decoder's
result for `msg` (`none` when `imgmsg_to_cv2` raises) and the bag timestamp
`t_ns`. -/
structure Msg where
  decoded : Option Raster
  t_ns : Int
deriving DecidableEq, Repr

/-- One emission: the raster pushed to the video writer together with the
sidecar CSV row `[frame_index, video_timestamp_ns, source_timestamp_ns,
is_repeat]` written alongside it. -/
structure Row where
  frame_index : Nat
  video_timestamp_ns : Int
  source_timestamp_ns : Option Int
  is_repeat : Bool
  pixels : Raster
deriving DecidableEq, Repr

/-- Python exceptions that `handle_msg` can raise: the external decoder
raising (`decode_error`), or arithmetic on a field still holding `None`
(`type_error`, unreachable from `init_state`). -/
inductive Err where
  | decode_error : Err
  | type_error : Err
deriving DecidableEq, Repr

/-- The mutable fields of `ImageTopicHandler`, named as in `__init__`.
The video writer is represented by the frame geometry `(h, w)` it was opened
with (`none` while `self.writer is None`). -/
structure NState where
  period_ns : Int
  frame_idx : Nat
  next_target_ts_ns : Option Int
  last_frame_bgr : Option Raster
  video_start_ts : Option Int
  first_img_seen : Bool
  last_source_ts_ns : Option Int
  writer : Option (Nat × Nat)
deriving DecidableEq, Repr

/-- `ImageTopicHandler.__init__`: `period_ns = int(round(1e9 / target_fps))`
is taken as the parameter directly (the float rounding is external to the
claims under study); every other field starts empty exactly as in the
source. -/
def init_state (period_ns : Int) : NState :=
  ⟨period_ns, 0, none, none, none, false, none, none⟩

/-- `ImageTopicHandler.init_writer_if_needed`: opens the writer on first use,
fixing the geometry to the sample frame's dimensions; a later call is a
no-op.  The `isOpened` check depends only on the external codec and is
modelled as succeeding. -/
def init_writer_if_needed (s : NState) (sample_bgr : Raster) : NState :=
  match s.writer with
  | some _ => s
  | none => { s with writer := some (sample_bgr.height, sample_bgr.width) }

/-- The body of the `while` loop of `emit_frozen_frames_until`, with explicit
fuel.  The loop condition is `next_target_ts_ns is not None and
next_target_ts_ns < t_img_ns and last_frame_bgr is not None`; the body opens
the writer if needed, writes `last_frame_bgr`, writes the sidecar row
`[frame_idx, next_target_ts_ns - video_start_ts, last_source_ts_ns, 1]`,
increments `frame_idx` and advances `next_target_ts_ns` by `period_ns`.
`video_start_ts is None` would make the row computation raise `TypeError`. -/
def emit_frozen_loop : Nat → NState → Int → Except Err (NState × List Row)
  | 0, s, _ => .ok (s, [])
  | fuel + 1, s, t_img_ns =>
    match s.next_target_ts_ns, s.last_frame_bgr with
    | some n, some f =>
      if n < t_img_ns then
        match s.video_start_ts with
        | none => .error .type_error
        | some v =>
          let s1 := init_writer_if_needed s f
          let row : Row := ⟨s1.frame_idx, n - v, s1.last_source_ts_ns, true, f⟩
          let s2 := { s1 with frame_idx := s1.frame_idx + 1,
                              next_target_ts_ns := some (n + s1.period_ns) }
          match emit_frozen_loop fuel s2 t_img_ns with
          | .error e => .error e
          | .ok (s3, rows) => .ok (s3, row :: rows)
      else .ok (s, [])
    | _, _ => .ok (s, [])

/-- Fuel that dominates the iteration count of the `while` loop whenever
`0 < period_ns` (each iteration advances `next_target_ts_ns` by
`period_ns`). -/
def fuel_for (s : NState) (t_img_ns : Int) : Nat :=
  match s.next_target_ts_ns with
  | none => 0
  | some n => (t_img_ns - n).toNat / s.period_ns.toNat + 1

/-- `ImageTopicHandler.emit_frozen_frames_until`. -/
def emit_frozen_frames_until (s : NState) (t_img_ns : Int) :
    Except Err (NState × List Row) :=
  emit_frozen_loop (fuel_for s t_img_ns) s t_img_ns

/-- `ImageTopicHandler.handle_msg`: decode (may raise), first-frame
initialization of `video_start_ts` / `next_target_ts_ns`, gap filling, then
the real-frame emission `[frame_idx, t_ns - video_start_ts, t_ns, 0]`,
`frame_idx += 1`, `next_target_ts_ns += period_ns`, and the update of
`last_frame_bgr` / `last_source_ts_ns`. -/
def handle_msg (s : NState) (m : Msg) : Except Err (NState × List Row) :=
  match m.decoded with
  | none => .error .decode_error
  | some img_bgr =>
    let s0 := if s.first_img_seen then s
              else { s with video_start_ts := some m.t_ns,
                            next_target_ts_ns := some m.t_ns,
                            first_img_seen := true }
    match emit_frozen_frames_until s0 m.t_ns with
    | .error e => .error e
    | .ok (s1, frozen_rows) =>
      match s1.video_start_ts, s1.next_target_ts_ns with
      | some v, some n =>
        let s2 := init_writer_if_needed s1 img_bgr
        let row : Row := ⟨s2.frame_idx, m.t_ns - v, some m.t_ns, false, img_bgr⟩
        let s3 := { s2 with frame_idx := s2.frame_idx + 1,
                            next_target_ts_ns := some (n + s2.period_ns),
                            last_frame_bgr := some img_bgr,
                            last_source_ts_ns := some m.t_ns }
        .ok (s3, frozen_rows ++ [row])
      | _, _ => .error .type_error

/-- The reader loop of `process_bag`, restricted to the image topic: each
message is handed to `handle_msg` with no surrounding exception handler, so
the first raised error stops the loop and propagates (third component);
messages after it are not read. -/
def run_msgs : NState → List Msg → NState × List Row × Option Err
  | s, [] => (s, [], none)
  | s, m :: ms =>
    match handle_msg s m with
    | .error e => (s, [], some e)
    | .ok (s1, rows) =>
      let r := run_msgs s1 ms
      (r.1, rows ++ r.2.1, r.2.2)

/-- Outcome of `process_bag` for one image stream: the emitted rows, the
final handler state, whether `handler.close()` was reached, and the error
that escaped (if any). -/
structure BagResult where
  rows : List Row
  final : NState
  closed : Bool
  err : Option Err
deriving DecidableEq, Repr

/-- `process_bag` for a single image topic: run the reader loop; the
`for handler in handlers.values(): handler.close()` loop sits after the
reader loop with no `try`/`finally`, so it runs exactly when no exception
escaped the loop. -/
def process_bag (period_ns : Int) (msgs : List Msg) : BagResult :=
  match run_msgs (init_state period_ns) msgs with
  | (s, rows, none) => ⟨rows, s, true, none⟩
  | (s, rows, some e) => ⟨rows, s, false, some e⟩

/-- Sample rasters used for concrete runs. -/
def img0 : Raster := ⟨2, 2, 7⟩

/-- Sample raster distinct from `img0`, same geometry. -/
def img1 : Raster := ⟨2, 2, 8⟩

/-- Sample raster, same geometry again. -/
def img2 : Raster := ⟨2, 2, 9⟩

/-- Sample raster with different geometry (for the mismatch scenario). -/
def img3 : Raster := ⟨3, 4, 10⟩

/-- `init_writer_if_needed` never touches `period_ns`. -/
@[simp] lemma init_writer_period (s : NState) (r : Raster) :
    (init_writer_if_needed s r).period_ns = s.period_ns := by
  unfold init_writer_if_needed; cases s.writer <;> rfl

/-- `init_writer_if_needed` never touches `frame_idx`. -/
@[simp] lemma init_writer_frame_idx (s : NState) (r : Raster) :
    (init_writer_if_needed s r).frame_idx = s.frame_idx := by
  unfold init_writer_if_needed; cases s.writer <;> rfl

/-- `init_writer_if_needed` never touches `next_target_ts_ns`. -/
@[simp] lemma init_writer_next (s : NState) (r : Raster) :
    (init_writer_if_needed s r).next_target_ts_ns = s.next_target_ts_ns := by
  unfold init_writer_if_needed; cases s.writer <;> rfl

/-- `init_writer_if_needed` never touches `last_frame_bgr`. -/
@[simp] lemma init_writer_last_frame (s : NState) (r : Raster) :
    (init_writer_if_needed s r).last_frame_bgr = s.last_frame_bgr := by
  unfold init_writer_if_needed; cases s.writer <;> rfl

/-- `init_writer_if_needed` never touches `video_start_ts`. -/
@[simp] lemma init_writer_start (s : NState) (r : Raster) :
    (init_writer_if_needed s r).video_start_ts = s.video_start_ts := by
  unfold init_writer_if_needed; cases s.writer <;> rfl

/-- `init_writer_if_needed` never touches `first_img_seen`. -/
@[simp] lemma init_writer_first (s : NState) (r : Raster) :
    (init_writer_if_needed s r).first_img_seen = s.first_img_seen := by
  unfold init_writer_if_needed; cases s.writer <;> rfl

/-- `init_writer_if_needed` never touches `last_source_ts_ns`. -/
@[simp] lemma init_writer_last_source (s : NState) (r : Raster) :
    (init_writer_if_needed s r).last_source_ts_ns = s.last_source_ts_ns := by
  unfold init_writer_if_needed; cases s.writer <;> rfl

/-- An already-open writer is never re-opened: its geometry is stable. -/
lemma init_writer_writer_some (s : NState) (r : Raster) (g : Nat × Nat)
    (h : s.writer = some g) : (init_writer_if_needed s r).writer = some g := by
  unfold init_writer_if_needed; rw [h]; exact h

/-- A closed writer is opened with the sample frame's geometry. -/
lemma init_writer_writer_none (s : NState) (r : Raster)
    (h : s.writer = none) :
    (init_writer_if_needed s r).writer = some (r.height, r.width) := by
  unfold init_writer_if_needed; rw [h]

/-- The fuel passed by `emit_frozen_frames_until` dominates the remaining
gap, one period per fuel unit. -/
lemma fuel_bound (t n p : Int) (hp : 0 < p) :
    t - n ≤ (((t - n).toNat / p.toNat + 1 : Nat) : Int) * p := by
  have hP : 0 < p.toNat := by omega
  set N : Nat := (t - n).toNat with hN
  set P : Nat := p.toNat with hP'
  have h1 : P * (N / P) + N % P = N := Nat.div_add_mod N P
  have h2 : N % P < P := Nat.mod_lt _ hP
  have h3 : N < (N / P + 1) * P := by
    have he : (N / P + 1) * P = P * (N / P) + P := by ring
    omega
  have h4 : t - n ≤ (N : Int) := Int.self_le_toNat _
  have h5 : ((N : Int)) < ((N / P + 1 : Nat) : Int) * ((P : Nat) : Int) := by
    exact_mod_cast Int.ofNat_lt.mpr h3
  have h6 : ((P : Nat) : Int) = p := by
    simp [hP', Int.toNat_of_nonneg hp.le]
  rw [h6] at h5
  exact le_of_lt (lt_of_le_of_lt h4 h5)

/-- Full specification of the gap-filling `while` loop: with enough fuel it
returns without error; every emitted row is a repeat of `last_frame_bgr`
stamped with `last_source_ts_ns`; frame indices are consecutive from
`frame_idx`; video timestamps start at `next_target_ts_ns - video_start_ts`
and advance by exactly `period_ns` per row, all staying strictly below the
incoming frame's offset; and the state advances accordingly, with the final
`next_target_ts_ns` at or beyond the incoming timestamp. -/
lemma emit_frozen_loop_spec (p t : Int) (hp : 0 < p) :
    ∀ (fuel : Nat) (s : NState) (n v tl : Int) (f : Raster),
    s.period_ns = p → s.next_target_ts_ns = some n → s.video_start_ts = some v →
    s.last_frame_bgr = some f → s.last_source_ts_ns = some tl →
    t - n ≤ (fuel : Int) * p →
    ∃ (s' : NState) (rows : List Row),
      emit_frozen_loop fuel s t = .ok (s', rows) ∧
      (∀ r ∈ rows, r.is_repeat = true ∧ r.pixels = f ∧
        r.source_timestamp_ns = some tl) ∧
      rows.map Row.frame_index = List.range' s.frame_idx rows.length ∧
      List.Chain' (fun a b => b.video_timestamp_ns = a.video_timestamp_ns + p)
        rows ∧
      (∀ r, rows.head? = some r → r.video_timestamp_ns = n - v) ∧
      (∀ r ∈ rows, n - v ≤ r.video_timestamp_ns ∧
        r.video_timestamp_ns + v < t) ∧
      s'.period_ns = p ∧
      s'.video_start_ts = some v ∧
      s'.last_frame_bgr = some f ∧
      s'.last_source_ts_ns = some tl ∧
      s'.first_img_seen = s.first_img_seen ∧
      s'.frame_idx = s.frame_idx + rows.length ∧
      (∀ g, s.writer = some g → s'.writer = some g) ∧
      ∃ n', s'.next_target_ts_ns = some n' ∧ n ≤ n' ∧ t ≤ n' := by
  intro fuel
  induction fuel with
  | zero =>
    intro s n v tl f hper hnext hstart hlast hsrc hfuel
    have ht : t ≤ n := by
      have : ((0 : Nat) : Int) * p = 0 := by norm_num
      omega
    refine ⟨s, [], rfl, ?_, rfl, ?_, ?_, ?_, hper, hstart, hlast, hsrc, rfl,
      rfl, fun g hg => hg, n, hnext, le_refl n, ht⟩
    · intro r hr; cases hr
    · exact List.chain'_nil
    · intro r hr; exact Option.noConfusion hr
    · intro r hr; cases hr
  | succ fuel ih =>
    intro s n v tl f hper hnext hstart hlast hsrc hfuel
    obtain ⟨pp, idx, nxt, lf, vs, fi, ls, w⟩ := s
    have hpp : pp = p := hper
    subst pp
    have h1 : nxt = some n := hnext
    subst h1
    have h2 : vs = some v := hstart
    subst h2
    have h3 : lf = some f := hlast
    subst h3
    have h4 : ls = some tl := hsrc
    subst h4
    by_cases hlt : n < t
    · -- the loop body fires once, then the induction hypothesis applies
      have hfuel' : t - (n + p) ≤ (fuel : Int) * p := by
        have hc : ((fuel + 1 : Nat) : Int) * p = (fuel : Int) * p + p := by
          push_cast; ring
        omega
      -- the state after one iteration, for each shape of the writer field
      cases w with
      | none =>
        obtain ⟨s', rows', heq, hrep, hidx, hchain, hhead, hbounds, f1, f2,
          f3, f4, f5, f6, f7, n', hn', hnn', htn'⟩ :=
          ih ⟨p, idx + 1, some (n + p), some f, some v, fi, some tl,
              some (f.height, f.width)⟩ (n + p) v tl f rfl rfl rfl rfl rfl
            hfuel'
        refine ⟨s', ⟨idx, n - v, some tl, true, f⟩ :: rows', ?_, ?_, ?_, ?_,
          ?_, ?_, f1, f2, f3, f4, f5, ?_, ?_, n', hn', by omega, htn'⟩
        · simp only [emit_frozen_loop, init_writer_if_needed]
          rw [if_pos hlt]
          rw [heq]
        · intro r hr
          rcases List.mem_cons.mp hr with h | h
          · subst h; exact ⟨rfl, rfl, rfl⟩
          · exact hrep r h
        · simp only [List.map_cons, List.length_cons]
          rw [hidx]
          simp [List.range']
        · refine List.chain'_cons'.mpr ⟨?_, hchain⟩
          intro b hb
          have hb' : rows'.head? = some b := hb
          have := hhead b hb'
          show b.video_timestamp_ns = (n - v) + p
          omega
        · intro r hr
          have h5 : (⟨idx, n - v, some tl, true, f⟩ : Row) = r := by
            simpa using hr
          obtain rfl := h5
          rfl
        · intro r hr
          rcases List.mem_cons.mp hr with h | h
          · subst h
            refine ⟨le_refl (n - v), ?_⟩
            show n - v + v < t
            omega
          · obtain ⟨hlo, hhi⟩ := hbounds r h
            exact ⟨by omega, hhi⟩
        · have f6a : s'.frame_idx = (idx + 1) + rows'.length := f6
          simp only [List.length_cons]
          omega
        · intro g hg
          exact Option.noConfusion hg
      | some g0 =>
        obtain ⟨s', rows', heq, hrep, hidx, hchain, hhead, hbounds, f1, f2,
          f3, f4, f5, f6, f7, n', hn', hnn', htn'⟩ :=
          ih ⟨p, idx + 1, some (n + p), some f, some v, fi, some tl,
              some g0⟩ (n + p) v tl f rfl rfl rfl rfl rfl hfuel'
        refine ⟨s', ⟨idx, n - v, some tl, true, f⟩ :: rows', ?_, ?_, ?_, ?_,
          ?_, ?_, f1, f2, f3, f4, f5, ?_, ?_, n', hn', by omega, htn'⟩
        · simp only [emit_frozen_loop, init_writer_if_needed]
          rw [if_pos hlt]
          rw [heq]
        · intro r hr
          rcases List.mem_cons.mp hr with h | h
          · subst h; exact ⟨rfl, rfl, rfl⟩
          · exact hrep r h
        · simp only [List.map_cons, List.length_cons]
          rw [hidx]
          simp [List.range']
        · refine List.chain'_cons'.mpr ⟨?_, hchain⟩
          intro b hb
          have hb' : rows'.head? = some b := hb
          have := hhead b hb'
          show b.video_timestamp_ns = (n - v) + p
          omega
        · intro r hr
          have h5 : (⟨idx, n - v, some tl, true, f⟩ : Row) = r := by
            simpa using hr
          obtain rfl := h5
          rfl
        · intro r hr
          rcases List.mem_cons.mp hr with h | h
          · subst h
            refine ⟨le_refl (n - v), ?_⟩
            show n - v + v < t
            omega
          · obtain ⟨hlo, hhi⟩ := hbounds r h
            exact ⟨by omega, hhi⟩
        · have f6a : s'.frame_idx = (idx + 1) + rows'.length := f6
          simp only [List.length_cons]
          omega
        · intro g hg
          have hg' : g0 = g := by
            have : some g0 = some g := hg
            exact Option.some.inj this
          subst hg'
          exact f7 g0 rfl
    · -- the loop condition is false at entry: nothing is emitted
      refine ⟨_, [], ?_, ?_, rfl, ?_, ?_, ?_, rfl, rfl, rfl, rfl, rfl, rfl,
        fun g hg => hg, n, rfl, le_refl n, not_lt.mp hlt⟩
      · simp only [emit_frozen_loop]
        rw [if_neg hlt]
      · intro r hr; cases hr
      · exact List.chain'_nil
      · intro r hr; exact Option.noConfusion hr
      · intro r hr; cases hr

/-- When no previous frame exists the gap-filling loop exits immediately,
whatever the fuel: this is the `last_frame_bgr is not None` conjunct of the
loop condition. -/
lemma emit_frozen_loop_no_last (fuel : Nat) (s : NState) (t : Int)
    (h : s.last_frame_bgr = none) : emit_frozen_loop fuel s t = .ok (s, []) := by
  cases fuel with
  | zero => rfl
  | succ fuel =>
    simp only [emit_frozen_loop]
    rw [h]
    cases s.next_target_ts_ns <;> rfl

/-- Specification of `emit_frozen_frames_until`: the wrapper's fuel always
suffices, so the conclusions of `emit_frozen_loop_spec` hold of it. -/
lemma emit_frozen_frames_until_spec (p t n v tl : Int) (f : Raster)
    (hp : 0 < p) (s : NState)
    (hper : s.period_ns = p) (hnext : s.next_target_ts_ns = some n)
    (hstart : s.video_start_ts = some v) (hlast : s.last_frame_bgr = some f)
    (hsrc : s.last_source_ts_ns = some tl) :
    ∃ (s' : NState) (rows : List Row),
      emit_frozen_frames_until s t = .ok (s', rows) ∧
      (∀ r ∈ rows, r.is_repeat = true ∧ r.pixels = f ∧
        r.source_timestamp_ns = some tl) ∧
      rows.map Row.frame_index = List.range' s.frame_idx rows.length ∧
      List.Chain' (fun a b => b.video_timestamp_ns = a.video_timestamp_ns + p)
        rows ∧
      (∀ r, rows.head? = some r → r.video_timestamp_ns = n - v) ∧
      (∀ r ∈ rows, n - v ≤ r.video_timestamp_ns ∧
        r.video_timestamp_ns + v < t) ∧
      s'.period_ns = p ∧
      s'.video_start_ts = some v ∧
      s'.last_frame_bgr = some f ∧
      s'.last_source_ts_ns = some tl ∧
      s'.first_img_seen = s.first_img_seen ∧
      s'.frame_idx = s.frame_idx + rows.length ∧
      (∀ g, s.writer = some g → s'.writer = some g) ∧
      ∃ n', s'.next_target_ts_ns = some n' ∧ n ≤ n' ∧ t ≤ n' := by
  have hfuel : t - n ≤ ((fuel_for s t : Nat) : Int) * p := by
    have : fuel_for s t = (t - n).toNat / p.toNat + 1 := by
      unfold fuel_for
      rw [hnext, hper]
    rw [this]
    exact fuel_bound t n p hp
  exact emit_frozen_loop_spec p t hp (fuel_for s t) s n v tl f hper hnext
    hstart hlast hsrc hfuel

/-- The very first ingest, from the freshly constructed handler state: the
timeline is pinned to the frame timestamp (`video_start_ts` and
`next_target_ts_ns` both become `t_ns`), no gap filling can fire, the single
emission is the real frame at video timestamp `0`, and the writer opens with
this frame's geometry. -/
lemma handle_msg_init (p : Int) (m : Msg) (img : Raster)
    (hm : m.decoded = some img) :
    handle_msg (init_state p) m = .ok
      (⟨p, 1, some (m.t_ns + p), some img, some m.t_ns, true, some m.t_ns,
        some (img.height, img.width)⟩,
      [⟨0, 0, some m.t_ns, false, img⟩]) := by
  simp only [handle_msg, hm, init_state]
  rw [emit_frozen_frames_until, emit_frozen_loop_no_last _ _ _ rfl]
  simp [init_writer_if_needed, sub_self]

/-- Specification of `handle_msg` after the first frame: gap filling behaves
as in `emit_frozen_frames_until_spec`, then exactly one real row is appended
carrying the fresh pixels at offset `t - video_start_ts`, and the state
advances (`next_target_ts_ns` ends at least one period beyond both the
incoming timestamp and its previous value). -/
lemma handle_msg_spec (p n v tl : Int) (f img : Raster) (hp : 0 < p)
    (s : NState) (m : Msg)
    (hfirst : s.first_img_seen = true) (hper : s.period_ns = p)
    (hnext : s.next_target_ts_ns = some n) (hstart : s.video_start_ts = some v)
    (hlast : s.last_frame_bgr = some f) (hsrc : s.last_source_ts_ns = some tl)
    (hm : m.decoded = some img) :
    ∃ (s' : NState) (frozen : List Row),
      handle_msg s m = .ok (s', frozen ++
        [⟨s.frame_idx + frozen.length, m.t_ns - v, some m.t_ns, false, img⟩]) ∧
      (∀ r ∈ frozen, r.is_repeat = true ∧ r.pixels = f ∧
        r.source_timestamp_ns = some tl) ∧
      frozen.map Row.frame_index = List.range' s.frame_idx frozen.length ∧
      List.Chain' (fun a b => b.video_timestamp_ns = a.video_timestamp_ns + p)
        frozen ∧
      (∀ r, frozen.head? = some r → r.video_timestamp_ns = n - v) ∧
      (∀ r ∈ frozen, n - v ≤ r.video_timestamp_ns ∧
        r.video_timestamp_ns + v < m.t_ns) ∧
      s'.period_ns = p ∧
      s'.video_start_ts = some v ∧
      s'.last_frame_bgr = some img ∧
      s'.last_source_ts_ns = some m.t_ns ∧
      s'.first_img_seen = true ∧
      s'.frame_idx = s.frame_idx + frozen.length + 1 ∧
      (∀ g, s.writer = some g → s'.writer = some g) ∧
      ∃ n', s'.next_target_ts_ns = some n' ∧ m.t_ns + p ≤ n' ∧ n + p ≤ n' := by
  obtain ⟨s1, frozen, heq, hrep, hidx, hchain, hhead, hbounds, g1, g2, g3,
    g4, g5, g6, g7, n1, hn1, hnn1, htn1⟩ :=
    emit_frozen_frames_until_spec p m.t_ns n v tl f hp s hper hnext hstart
      hlast hsrc
  refine ⟨{ init_writer_if_needed s1 img with
            frame_idx := (init_writer_if_needed s1 img).frame_idx + 1,
            next_target_ts_ns :=
              some (n1 + (init_writer_if_needed s1 img).period_ns),
            last_frame_bgr := some img,
            last_source_ts_ns := some m.t_ns }, frozen, ?_, hrep, hidx,
    hchain, hhead, hbounds, ?_, ?_, rfl, rfl, ?_, ?_, ?_,
    n1 + (init_writer_if_needed s1 img).period_ns, rfl, ?_, ?_⟩
  · simp only [handle_msg, hm, hfirst, if_true]
    rw [heq]
    simp only [g2, hn1]
    simp [init_writer_frame_idx, g6]
  · simp [init_writer_period, g1]
  · simp [init_writer_start, g2]
  · simp [init_writer_first, g5, hfirst]
  · simp [init_writer_frame_idx, g6]
  · intro g hg
    have h1 : s1.writer = some g := g7 g hg
    have h2 : (init_writer_if_needed s1 img).writer = some g :=
      init_writer_writer_some s1 img g h1
    exact h2
  · have : (init_writer_if_needed s1 img).period_ns = p := by
      simp [init_writer_period, g1]
    rw [this]
    omega
  · have : (init_writer_if_needed s1 img).period_ns = p := by
      simp [init_writer_period, g1]
    rw [this]
    omega

/-- State invariant after at least one successful ingest: the first-frame
flag is set, the timeline origin is `v`, the last emitted source timestamp is
`tl`, a previous frame is retained, and the next target tick is at least one
period past `tl`. -/
def NormInv (p : Int) (s : NState) (v tl : Int) : Prop :=
  s.first_img_seen = true ∧ s.period_ns = p ∧ s.video_start_ts = some v ∧
  s.last_source_ts_ns = some tl ∧ (∃ f, s.last_frame_bgr = some f) ∧
  ∃ n, s.next_target_ts_ns = some n ∧ tl + p ≤ n

/-- The state after the very first ingest satisfies the invariant. -/
lemma handle_msg_init_inv (p : Int) (m : Msg) (img : Raster) :
    NormInv p (⟨p, 1, some (m.t_ns + p), some img, some m.t_ns, true,
      some m.t_ns, some (img.height, img.width)⟩ : NState) m.t_ns m.t_ns :=
  ⟨rfl, rfl, rfl, rfl, ⟨img, rfl⟩, ⟨m.t_ns + p, rfl, le_refl _⟩⟩

/-- Along a chain of exact `+ p` steps, every later element is strictly
above the start (for positive `p`). -/
lemma chain_grid_lower (p : Int) (hp : 0 < p) :
    ∀ (l : List Row) (a : Row),
    List.Chain (fun x y : Row =>
      y.video_timestamp_ns = x.video_timestamp_ns + p) a l →
    ∀ b ∈ l, a.video_timestamp_ns < b.video_timestamp_ns := by
  intro l
  induction l with
  | nil => intro a _ b hb; cases hb
  | cons c l ih =>
    intro a h b hb
    rcases List.chain_cons.mp h with ⟨hac, hcl⟩
    rcases List.mem_cons.mp hb with h1 | h1
    · subst h1; omega
    · have := ih c hcl b h1
      omega

/-- A `+ p`-stepped chain of rows is sorted by video timestamp. -/
lemma chain_grid_pairwise (p : Int) (hp : 0 < p) :
    ∀ rows : List Row,
    List.Chain' (fun a b : Row =>
      b.video_timestamp_ns = a.video_timestamp_ns + p) rows →
    List.Pairwise (fun a b : Row =>
      a.video_timestamp_ns ≤ b.video_timestamp_ns) rows := by
  intro rows
  induction rows with
  | nil => intro _; exact List.Pairwise.nil
  | cons a l ih =>
    intro h
    have hch : List.Chain (fun x y : Row =>
        y.video_timestamp_ns = x.video_timestamp_ns + p) a l := h
    refine List.Pairwise.cons ?_ (ih h.tail)
    intro b hb
    exact le_of_lt (chain_grid_lower p hp l a hch b hb)

/-- `List.range'` with the upper end split off. -/
lemma range'_snoc (a k : Nat) :
    List.range' a (k + 1) = List.range' a k ++ [a + k] := by
  induction k generalizing a with
  | zero => simp [List.range']
  | succ k ih =>
    have h1 : List.range' a (k + 1 + 1) = a :: List.range' (a + 1) (k + 1) :=
      rfl
    rw [h1, ih (a + 1)]
    have h2 : List.range' a (k + 1) = a :: List.range' (a + 1) k := rfl
    rw [h2]
    simp
    omega

/-- Concatenation of two adjacent `List.range'` blocks. -/
lemma range'_append_add (a k1 k2 : Nat) :
    List.range' a k1 ++ List.range' (a + k1) k2 = List.range' a (k1 + k2) := by
  induction k1 generalizing a with
  | zero => simp
  | succ k1 ih =>
    have h1 : List.range' a (k1 + 1) = a :: List.range' (a + 1) k1 := rfl
    have h3 : k1 + 1 + k2 = (k1 + k2) + 1 := by omega
    have h2 : List.range' a ((k1 + k2) + 1) =
        a :: List.range' (a + 1) (k1 + k2) := rfl
    rw [h1, h3, h2, List.cons_append]
    have h4 : a + (k1 + 1) = (a + 1) + k1 := by omega
    rw [h4, ih (a + 1)]

/-- One post-first ingest, packaged for the reader-loop induction: the call
succeeds, re-establishes the invariant at the new timestamp, extends the
gapless index sequence, and emits rows sorted by video timestamp and lying
between `tl - v` and `t_ns - v`. -/
lemma handle_msg_call (p v tl : Int) (hp : 0 < p) (s : NState) (m : Msg)
    (img : Raster) (hinv : NormInv p s v tl) (hm : m.decoded = some img)
    (ht : tl ≤ m.t_ns) :
    ∃ s' rows, handle_msg s m = .ok (s', rows) ∧ NormInv p s' v m.t_ns ∧
      rows ≠ [] ∧
      rows.map Row.frame_index = List.range' s.frame_idx rows.length ∧
      s'.frame_idx = s.frame_idx + rows.length ∧
      List.Pairwise (fun a b : Row =>
        a.video_timestamp_ns ≤ b.video_timestamp_ns) rows ∧
      (∀ r ∈ rows, tl - v ≤ r.video_timestamp_ns ∧
        r.video_timestamp_ns ≤ m.t_ns - v) := by
  obtain ⟨hfirst, hper, hstart, hsrc, ⟨f, hlast⟩, n, hnext, hn⟩ := hinv
  obtain ⟨s', frozen, heq, hrep, hidx, hchain, hhead, hbounds, g1, g2, g3,
    g4, g5, g6, g7, n', hn', hn'1, hn'2⟩ :=
    handle_msg_spec p n v tl f img hp s m hfirst hper hnext hstart hlast
      hsrc hm
  refine ⟨s', _, heq, ⟨g5, g1, g2, g4, ⟨img, g3⟩, n', hn', by omega⟩,
    by simp, ?_, ?_, ?_, ?_⟩
  · rw [List.map_append, hidx]
    simp only [List.map_cons, List.map_nil, List.length_append,
      List.length_cons, List.length_nil]
    have : List.range' (s.frame_idx + frozen.length) 1 =
        [s.frame_idx + frozen.length] := rfl
    rw [show frozen.length + (0 + 1) = frozen.length + 1 by omega]
    rw [← range'_append_add s.frame_idx frozen.length 1, this]
  · simp only [List.length_append, List.length_cons, List.length_nil]
    omega
  · rw [List.pairwise_append]
    refine ⟨chain_grid_pairwise p hp frozen hchain, ?_, ?_⟩
    · simp
    · intro a ha b hb
      have hb' : b = ⟨s.frame_idx + frozen.length, m.t_ns - v, some m.t_ns,
          false, img⟩ := by simpa using hb
      subst hb'
      have := (hbounds a ha).2
      show a.video_timestamp_ns ≤ m.t_ns - v
      omega
  · intro r hr
    rcases List.mem_append.mp hr with h1 | h1
    · obtain ⟨hlo, hhi⟩ := hbounds r h1
      constructor
      · omega
      · omega
    · have hr' : r = ⟨s.frame_idx + frozen.length, m.t_ns - v, some m.t_ns,
          false, img⟩ := by simpa using h1
      subst hr'
      constructor
      · show tl - v ≤ m.t_ns - v
        omega
      · show m.t_ns - v ≤ m.t_ns - v
        omega

/-- Timestamp of the last message of the list, defaulting to the
accumulator: the value `last_source_ts_ns` holds after the whole list is
ingested. -/
def last_ts : Int → List Msg → Int
  | tl, [] => tl
  | _, m :: ms => last_ts m.t_ns ms

/-- Under a non-decreasing chain the final timestamp dominates the start. -/
lemma last_ts_ge (tl : Int) (ms : List Msg)
    (h : List.Chain (fun a b : Int => a ≤ b) tl (ms.map Msg.t_ns)) :
    tl ≤ last_ts tl ms := by
  induction ms generalizing tl with
  | nil => exact le_refl tl
  | cons m ms ih =>
    rcases List.chain_cons.mp h with ⟨h1, h2⟩
    have := ih m.t_ns h2
    show tl ≤ last_ts m.t_ns ms
    omega

/-- The reader loop, run from any state satisfying the invariant, over
decodable messages with non-decreasing timestamps: no error occurs, the
invariant is re-established at the last timestamp, frame indices stay
consecutive, and emitted video timestamps are sorted and confined to
`[tl - v, last - v]`. -/
lemma run_msgs_spec (p v : Int) (hp : 0 < p) :
    ∀ (ms : List Msg) (s : NState) (tl : Int),
    NormInv p s v tl → (∀ x ∈ ms, x.decoded.isSome = true) →
    List.Chain (fun a b : Int => a ≤ b) tl (ms.map Msg.t_ns) →
    ∃ s' rows, run_msgs s ms = (s', rows, none) ∧
      NormInv p s' v (last_ts tl ms) ∧
      rows.map Row.frame_index = List.range' s.frame_idx rows.length ∧
      s'.frame_idx = s.frame_idx + rows.length ∧
      List.Pairwise (fun a b : Row =>
        a.video_timestamp_ns ≤ b.video_timestamp_ns) rows ∧
      (∀ r ∈ rows, tl - v ≤ r.video_timestamp_ns ∧
        r.video_timestamp_ns ≤ last_ts tl ms - v) := by
  intro ms
  induction ms with
  | nil =>
    intro s tl hinv _ _
    exact ⟨s, [], rfl, hinv, rfl, rfl, List.Pairwise.nil,
      fun r hr => absurd hr (List.not_mem_nil r)⟩
  | cons m ms ih =>
    intro s tl hinv hdec hchain
    rcases List.chain_cons.mp (by simpa using hchain) with ⟨h1, h2⟩
    obtain ⟨img, hm⟩ := Option.isSome_iff_exists.mp
      (hdec m (List.mem_cons_self m ms))
    obtain ⟨s1, rows1, heq1, hinv1, hne1, hidx1, hfi1, hpw1, hb1⟩ :=
      handle_msg_call p v tl hp s m img hinv hm h1
    obtain ⟨s2, rows2, heq2, hinv2, hidx2, hfi2, hpw2, hb2⟩ :=
      ih s1 m.t_ns hinv1 (fun x hx => hdec x (List.mem_cons_of_mem m hx)) h2
    have hlast : last_ts tl (m :: ms) = last_ts m.t_ns ms := rfl
    have hmt : m.t_ns ≤ last_ts m.t_ns ms := last_ts_ge m.t_ns ms h2
    refine ⟨s2, rows1 ++ rows2, ?_, ?_, ?_, ?_, ?_, ?_⟩
    · simp [run_msgs, heq1, heq2]
    · rw [hlast]; exact hinv2
    · rw [List.map_append, hidx1, hidx2, hfi1]
      simp only [List.length_append]
      exact range'_append_add s.frame_idx rows1.length rows2.length
    · simp only [List.length_append]
      omega
    · rw [List.pairwise_append]
      refine ⟨hpw1, hpw2, ?_⟩
      intro a ha b hb
      have hu := (hb1 a ha).2
      have hl := (hb2 b hb).1
      omega
    · intro r hr
      rw [hlast]
      rcases List.mem_append.mp hr with hr1 | hr1
      · obtain ⟨hlo, hhi⟩ := hb1 r hr1
        exact ⟨hlo, by omega⟩
      · obtain ⟨hlo, hhi⟩ := hb2 r hr1
        exact ⟨by omega, hhi⟩

/-- Frame indices emitted by the gap-filling loop are consecutive from the
entry `frame_idx`, for any state and fuel whatsoever. -/
lemma emit_frozen_loop_idx :
    ∀ (fuel : Nat) (s : NState) (t : Int) (s' : NState) (rows : List Row),
    emit_frozen_loop fuel s t = .ok (s', rows) →
    rows.map Row.frame_index = List.range' s.frame_idx rows.length ∧
    s'.frame_idx = s.frame_idx + rows.length := by
  intro fuel
  induction fuel with
  | zero =>
    intro s t s' rows h
    simp only [emit_frozen_loop, Except.ok.injEq, Prod.mk.injEq] at h
    obtain ⟨h1, h2⟩ := h
    subst h1
    subst h2
    exact ⟨rfl, rfl⟩
  | succ fuel ih =>
    intro s t s' rows h
    obtain ⟨pp, idx, nxt, lf, vs, fi, ls, w⟩ := s
    cases nxt with
    | none =>
      simp only [emit_frozen_loop, Except.ok.injEq, Prod.mk.injEq] at h
      obtain ⟨h1, h2⟩ := h
      subst h1
      subst h2
      exact ⟨rfl, rfl⟩
    | some n =>
      cases lf with
      | none =>
        simp only [emit_frozen_loop, Except.ok.injEq, Prod.mk.injEq] at h
        obtain ⟨h1, h2⟩ := h
        subst h1
        subst h2
        exact ⟨rfl, rfl⟩
      | some f =>
        by_cases hlt : n < t
        · cases vs with
          | none =>
            simp only [emit_frozen_loop] at h
            rw [if_pos hlt] at h
            exact Except.noConfusion h
          | some v =>
            cases w with
            | none =>
              simp only [emit_frozen_loop, init_writer_if_needed] at h
              rw [if_pos hlt] at h
              cases hrec : emit_frozen_loop fuel
                  ⟨pp, idx + 1, some (n + pp), some f, some v, fi, ls,
                    some (f.height, f.width)⟩ t with
              | error e =>
                rw [hrec] at h
                exact Except.noConfusion h
              | ok pr =>
                obtain ⟨s3, rows3⟩ := pr
                rw [hrec] at h
                simp only [Except.ok.injEq, Prod.mk.injEq] at h
                obtain ⟨h1, h2⟩ := h
                subst h1
                subst h2
                obtain ⟨ha, hb⟩ := ih _ t _ _ hrec
                constructor
                · rw [List.map_cons, ha]
                  rfl
                · have hb2 : s3.frame_idx = (idx + 1) + rows3.length := hb
                  simp only [List.length_cons]
                  omega
            | some g0 =>
              simp only [emit_frozen_loop, init_writer_if_needed] at h
              rw [if_pos hlt] at h
              cases hrec : emit_frozen_loop fuel
                  ⟨pp, idx + 1, some (n + pp), some f, some v, fi, ls,
                    some g0⟩ t with
              | error e =>
                rw [hrec] at h
                exact Except.noConfusion h
              | ok pr =>
                obtain ⟨s3, rows3⟩ := pr
                rw [hrec] at h
                simp only [Except.ok.injEq, Prod.mk.injEq] at h
                obtain ⟨h1, h2⟩ := h
                subst h1
                subst h2
                obtain ⟨ha, hb⟩ := ih _ t _ _ hrec
                constructor
                · rw [List.map_cons, ha]
                  rfl
                · have hb2 : s3.frame_idx = (idx + 1) + rows3.length := hb
                  simp only [List.length_cons]
                  omega
        · simp only [emit_frozen_loop] at h
          rw [if_neg hlt] at h
          simp only [Except.ok.injEq, Prod.mk.injEq] at h
          obtain ⟨h1, h2⟩ := h
          subst h1
          subst h2
          exact ⟨rfl, rfl⟩

/-- Any successful `handle_msg` call emits rows whose frame indices are
consecutive from the entry `frame_idx`, and advances `frame_idx` by exactly
the number of rows emitted, whatever the state. -/
lemma handle_msg_idx (s : NState) (m : Msg) (s' : NState) (rows : List Row)
    (h : handle_msg s m = .ok (s', rows)) :
    rows.map Row.frame_index = List.range' s.frame_idx rows.length ∧
    s'.frame_idx = s.frame_idx + rows.length := by
  obtain ⟨md, mt⟩ := m
  cases md with
  | none => exact Except.noConfusion h
  | some img =>
    obtain ⟨pp, idx, nxt, lf, vs, fi, ls, w⟩ := s
    cases fi with
    | false =>
      simp only [handle_msg, Bool.false_eq_true, if_false] at h
      cases hemit : emit_frozen_frames_until
          ⟨pp, idx, some mt, lf, some mt, true, ls, w⟩ mt with
      | error e =>
        simp only [hemit] at h
        exact Except.noConfusion h
      | ok pr =>
        obtain ⟨s1, frozen⟩ := pr
        simp only [hemit] at h
        have hloop : emit_frozen_loop
            (fuel_for ⟨pp, idx, some mt, lf, some mt, true, ls, w⟩ mt)
            ⟨pp, idx, some mt, lf, some mt, true, ls, w⟩ mt =
            .ok (s1, frozen) := hemit
        obtain ⟨ha, hb⟩ := emit_frozen_loop_idx _ _ mt s1 frozen hloop
        have ha2 : frozen.map Row.frame_index =
            List.range' idx frozen.length := ha
        have hb2 : s1.frame_idx = idx + frozen.length := hb
        cases hv : s1.video_start_ts with
        | none =>
          simp only [hv] at h
          exact Except.noConfusion h
        | some v =>
          cases hn : s1.next_target_ts_ns with
          | none =>
            simp only [hv, hn] at h
            exact Except.noConfusion h
          | some nn =>
            simp only [hv, hn, Except.ok.injEq, Prod.mk.injEq] at h
            obtain ⟨h1, h2⟩ := h
            subst h1
            subst h2
            constructor
            · rw [List.map_append, ha2]
              simp only [List.map_cons, List.map_nil, init_writer_frame_idx,
                hb2, List.length_append, List.length_cons, List.length_nil]
              rw [show frozen.length + (0 + 1) = frozen.length + 1 by omega]
              rw [range'_snoc idx frozen.length]
            · simp only [init_writer_frame_idx, hb2, List.length_append,
                List.length_cons, List.length_nil]
              omega
    | true =>
      simp only [handle_msg, if_true] at h
      cases hemit : emit_frozen_frames_until
          ⟨pp, idx, nxt, lf, vs, true, ls, w⟩ mt with
      | error e =>
        simp only [hemit] at h
        exact Except.noConfusion h
      | ok pr =>
        obtain ⟨s1, frozen⟩ := pr
        simp only [hemit] at h
        have hloop : emit_frozen_loop
            (fuel_for ⟨pp, idx, nxt, lf, vs, true, ls, w⟩ mt)
            ⟨pp, idx, nxt, lf, vs, true, ls, w⟩ mt =
            .ok (s1, frozen) := hemit
        obtain ⟨ha, hb⟩ := emit_frozen_loop_idx _ _ mt s1 frozen hloop
        have ha2 : frozen.map Row.frame_index =
            List.range' idx frozen.length := ha
        have hb2 : s1.frame_idx = idx + frozen.length := hb
        cases hv : s1.video_start_ts with
        | none =>
          simp only [hv] at h
          exact Except.noConfusion h
        | some v =>
          cases hn : s1.next_target_ts_ns with
          | none =>
            simp only [hv, hn] at h
            exact Except.noConfusion h
          | some nn =>
            simp only [hv, hn, Except.ok.injEq, Prod.mk.injEq] at h
            obtain ⟨h1, h2⟩ := h
            subst h1
            subst h2
            constructor
            · rw [List.map_append, ha2]
              simp only [List.map_cons, List.map_nil, init_writer_frame_idx,
                hb2, List.length_append, List.length_cons, List.length_nil]
              rw [show frozen.length + (0 + 1) = frozen.length + 1 by omega]
              rw [range'_snoc idx frozen.length]
            · simp only [init_writer_frame_idx, hb2, List.length_append,
                List.length_cons, List.length_nil]
              omega

/-- Over any message list whatsoever (decodable or not, sorted or not), the
reader loop emits rows with frame indices exactly consecutive from the entry
`frame_idx`. -/
lemma run_msgs_idx :
    ∀ (ms : List Msg) (s : NState),
    ((run_msgs s ms).2.1).map Row.frame_index =
      List.range' s.frame_idx ((run_msgs s ms).2.1).length ∧
    (run_msgs s ms).1.frame_idx =
      s.frame_idx + ((run_msgs s ms).2.1).length := by
  intro ms
  induction ms with
  | nil => intro s; exact ⟨rfl, rfl⟩
  | cons m ms ih =>
    intro s
    cases hh : handle_msg s m with
    | error e =>
      have hr : run_msgs s (m :: ms) = (s, [], some e) := by
        simp [run_msgs, hh]
      rw [hr]
      exact ⟨rfl, rfl⟩
    | ok pr =>
      obtain ⟨s1, rows1⟩ := pr
      have hr : run_msgs s (m :: ms) =
          ((run_msgs s1 ms).1, rows1 ++ (run_msgs s1 ms).2.1,
            (run_msgs s1 ms).2.2) := by
        simp [run_msgs, hh]
      rw [hr]
      obtain ⟨ha, hb⟩ := handle_msg_idx s m s1 rows1 hh
      obtain ⟨hc, hd⟩ := ih s1
      constructor
      · simp only [List.map_append, List.length_append]
        rw [ha, hc, hb]
        exact range'_append_add s.frame_idx rows1.length _
      · simp only [List.length_append]
        omega

/-- `process_bag` in terms of the reader loop: rows, final state and error
are those of `run_msgs` from the initial state, and the close step runs
exactly when no error escaped. -/
lemma process_bag_eq (p : Int) (msgs : List Msg) :
    (process_bag p msgs).rows = (run_msgs (init_state p) msgs).2.1 ∧
    (process_bag p msgs).final = (run_msgs (init_state p) msgs).1 ∧
    (process_bag p msgs).err = (run_msgs (init_state p) msgs).2.2 ∧
    (process_bag p msgs).closed =
      ((run_msgs (init_state p) msgs).2.2).isNone := by
  rcases hr : run_msgs (init_state p) msgs with ⟨s, rows, e⟩
  cases e <;> simp [process_bag, hr]

/-- C1: For every sequence of ingested source frames (in particular every
non-decreasing one), the emitted `frame_index` values are exactly `0..N-1`
in emission order, where `N` is the total number of emissions: `frame_idx`
starts at 0, increases by exactly 1 on every emission (repeat or real), and
is never skipped, repeated, or decremented. -/
theorem claim_C1 (period_ns : Int) (msgs : List Msg) :
    ((process_bag period_ns msgs).rows).map Row.frame_index =
      List.range ((process_bag period_ns msgs).rows).length := by
  obtain ⟨hrows, -, -, -⟩ := process_bag_eq period_ns msgs
  rw [hrows]
  have h := (run_msgs_idx msgs (init_state period_ns)).1
  rw [h, List.range_eq_range']
  rfl

/-- C2 counterexample: with period 100ms and source frames at t=0 and
t=10ms, the emitted video timestamps are `[0, 10ms]`, not the consecutive
multiples `[0·period, 1·period] = [0, 100ms]` the claim requires. -/
theorem claim_C2_counterexample :
    ((process_bag 100000000 [⟨some img0, 0⟩, ⟨some img1, 10000000⟩]).rows.map
      Row.video_timestamp_ns = [0, 10000000]) ∧
    ¬ ((process_bag 100000000 [⟨some img0, 0⟩,
        ⟨some img1, 10000000⟩]).rows.map Row.video_timestamp_ns =
      [0 * 100000000, 1 * 100000000]) := by decide

/-- C2 (amended): within a single ingest the gap-filling repeats do land on
consecutive target ticks — the first repeat (if any) sits at
`next_target_ts_ns - video_start_ts` and each following repeat is exactly
`period_ns` later — but the closing real frame lands at its own offset
`t_ns - video_start_ts`, so the global emitted timeline is not the sequence
`0, period_ns, 2·period_ns, …` (zero jitter holds only for repeats). -/
theorem claim_C2 (p n v tl : Int) (f img : Raster) (hp : 0 < p)
    (s : NState) (m : Msg)
    (hfirst : s.first_img_seen = true) (hper : s.period_ns = p)
    (hnext : s.next_target_ts_ns = some n) (hstart : s.video_start_ts = some v)
    (hlast : s.last_frame_bgr = some f) (hsrc : s.last_source_ts_ns = some tl)
    (hm : m.decoded = some img) :
    ∃ (s' : NState) (frozen : List Row),
      handle_msg s m = .ok (s', frozen ++
        [⟨s.frame_idx + frozen.length, m.t_ns - v, some m.t_ns, false, img⟩]) ∧
      (∀ r, frozen.head? = some r → r.video_timestamp_ns = n - v) ∧
      List.Chain' (fun a b => b.video_timestamp_ns = a.video_timestamp_ns + p)
        frozen ∧
      (∀ r ∈ frozen, r.is_repeat = true) := by
  obtain ⟨s', frozen, heq, hrep, _, hchain, hhead, _, _, _, _, _, _, _, _,
    _, _, _, _⟩ :=
    handle_msg_spec p n v tl f img hp s m hfirst hper hnext hstart hlast
      hsrc hm
  exact ⟨s', frozen, heq, hhead, hchain, fun r hr => (hrep r hr).1⟩

/-- C2 witness: the amended statement instantiated after a first frame at
t=0 with period 100ms, ingesting the next frame at t=250ms. -/
theorem claim_C2_witness :
    ∃ (s' : NState) (frozen : List Row),
      handle_msg ⟨100000000, 1, some 100000000, some img0, some 0, true,
          some 0, some (2, 2)⟩ ⟨some img1, 250000000⟩ = .ok (s', frozen ++
        [⟨1 + frozen.length, 250000000 - 0, some 250000000, false, img1⟩]) ∧
      (∀ r, frozen.head? = some r →
        r.video_timestamp_ns = 100000000 - 0) ∧
      List.Chain' (fun a b =>
        b.video_timestamp_ns = a.video_timestamp_ns + 100000000) frozen ∧
      (∀ r ∈ frozen, r.is_repeat = true) :=
  claim_C2 100000000 100000000 0 0 img0 img1 (by norm_num)
    ⟨100000000, 1, some 100000000, some img0, some 0, true, some 0,
      some (2, 2)⟩
    ⟨some img1, 250000000⟩ rfl rfl rfl rfl rfl rfl rfl

/-- C3 counterexample: frames at t=0 then t=10ms with period 100ms leave
`next_target_ts_ns = 200ms` after the second call, not
`t + period_ns = 110ms`: the boundary answers to the unconditional
`+= period_ns`, not to the frame just placed. -/
theorem claim_C3_counterexample :
    (process_bag 100000000 [⟨some img0, 0⟩,
      ⟨some img1, 10000000⟩]).final.next_target_ts_ns = some 200000000 ∧
    (200000000 : Int) ≠ 10000000 + 100000000 := by decide

/-- C3 (amended): after every post-first ingest of a frame at `t`, the next
gap-fill boundary satisfies `t + period_ns ≤ next_target_ts_ns`; it is not
in general equal to `t + period_ns` — the loop stops at the first tick at or
past `t` and the unconditional `+= period_ns` advances from there, so bursts
leave the boundary cumulatively ahead instead of rebasing it to the latest
real frame. -/
theorem claim_C3 (p v tl : Int) (hp : 0 < p) (s : NState) (m : Msg)
    (img : Raster) (hinv : NormInv p s v tl) (hm : m.decoded = some img) :
    ∃ s' rows n', handle_msg s m = .ok (s', rows) ∧
      s'.next_target_ts_ns = some n' ∧ m.t_ns + p ≤ n' := by
  obtain ⟨hfirst, hper, hstart, hsrc, ⟨f, hlast⟩, n, hnext, hn⟩ := hinv
  obtain ⟨s', frozen, heq, _, _, _, _, _, _, _, _, _, _, _, _, n', hn',
    hA, hB⟩ :=
    handle_msg_spec p n v tl f img hp s m hfirst hper hnext hstart hlast
      hsrc hm
  exact ⟨s', _, n', heq, hn', hA⟩

/-- C3 witness: the amended bound instantiated after a first frame at t=0
with period 100ms, ingesting the next frame at t=250ms. -/
theorem claim_C3_witness :
    ∃ s' rows n', handle_msg ⟨100000000, 1, some 100000000, some img0,
        some 0, true, some 0, some (2, 2)⟩ ⟨some img1, 250000000⟩ =
        .ok (s', rows) ∧
      s'.next_target_ts_ns = some n' ∧ (250000000 : Int) + 100000000 ≤ n' :=
  claim_C3 100000000 0 0 (by norm_num)
    ⟨100000000, 1, some 100000000, some img0, some 0, true, some 0,
      some (2, 2)⟩
    ⟨some img1, 250000000⟩ img1
    ⟨rfl, rfl, rfl, rfl, ⟨img0, rfl⟩, ⟨100000000, rfl, by norm_num⟩⟩ rfl

/-- C4: gap-filling scenario — exactly two source frames at t=0 and t=250ms
with period 100ms yield exactly 4 emissions in order: the real first frame
at video timestamp 0, hold-last repeats at 100ms and 200ms (carrying the
first frame's pixels and source timestamp), and the real second frame at
250ms. -/
theorem claim_C4 :
    (process_bag 100000000 [⟨some img0, 0⟩, ⟨some img1, 250000000⟩]).rows =
      [⟨0, 0, some 0, false, img0⟩,
       ⟨1, 100000000, some 0, true, img0⟩,
       ⟨2, 200000000, some 0, true, img0⟩,
       ⟨3, 250000000, some 250000000, false, img1⟩] ∧
    (process_bag 100000000 [⟨some img0, 0⟩, ⟨some img1, 250000000⟩]).err =
      none := by decide

/-- C5: the gap-filling phase never emits on the very first ingested frame
and never emits when the new frame arrives less than `period_ns` after the
previous one; in particular frames at t=0, 10ms, 20ms with period 100ms
yield exactly three emissions, all real. -/
theorem claim_C5 :
    (∀ (p : Int) (m : Msg) (img : Raster) (s' : NState) (rows : List Row),
      m.decoded = some img → handle_msg (init_state p) m = .ok (s', rows) →
      ∀ r ∈ rows, r.is_repeat = false) ∧
    (∀ (p v tl : Int) (s : NState) (m : Msg) (img : Raster) (s' : NState)
      (rows : List Row), 0 < p → NormInv p s v tl →
      m.decoded = some img → m.t_ns - tl < p →
      handle_msg s m = .ok (s', rows) →
      ∀ r ∈ rows, r.is_repeat = false) ∧
    ((process_bag 100000000 [⟨some img0, 0⟩, ⟨some img1, 10000000⟩,
        ⟨some img2, 20000000⟩]).rows.map Row.is_repeat =
      [false, false, false] ∧
     (process_bag 100000000 [⟨some img0, 0⟩, ⟨some img1, 10000000⟩,
        ⟨some img2, 20000000⟩]).rows.length = 3) := by
  refine ⟨?_, ?_, by decide⟩
  · intro p m img s' rows hm h
    rw [handle_msg_init p m img hm] at h
    simp only [Except.ok.injEq, Prod.mk.injEq] at h
    obtain ⟨h1, h2⟩ := h
    subst h2
    intro r hr
    have : r = ⟨0, 0, some m.t_ns, false, img⟩ := by simpa using hr
    subst this
    rfl
  · intro p v tl s m img s' rows hp hinv hm hfast h
    obtain ⟨hfirst, hper, hstart, hsrc, ⟨f, hlast⟩, n, hnext, hn⟩ := hinv
    obtain ⟨s'', frozen, heq, hrep, _, _, hhead, hbounds, _, _, _, _, _, _,
      _, _, _, _, _⟩ :=
      handle_msg_spec p n v tl f img hp s m hfirst hper hnext hstart hlast
        hsrc hm
    rw [heq] at h
    simp only [Except.ok.injEq, Prod.mk.injEq] at h
    obtain ⟨h1, h2⟩ := h
    subst h2
    have hfz : frozen = [] := by
      cases hf : frozen with
      | nil => rfl
      | cons a l =>
        have hh := hhead a (by rw [hf]; rfl)
        have hb := (hbounds a (by rw [hf]; exact List.mem_cons_self a l)).2
        omega
    subst hfz
    intro r hr
    have : r = ⟨s.frame_idx + ([] : List Row).length, m.t_ns - v,
        some m.t_ns, false, img⟩ := by simpa using hr
    subst this
    rfl

/-- C5 witness: the first-call conjunct instantiated with period 100ms and a
single frame at t=5, whose only emission is real. -/
theorem claim_C5_witness :
    ∀ r ∈ [(⟨0, 0, some 5, false, img0⟩ : Row)], r.is_repeat = false :=
  claim_C5.1 100000000 ⟨some img0, 5⟩ img0
    ⟨100000000, 1, some 100000005, some img0, some 5, true, some 5,
      some (2, 2)⟩
    [⟨0, 0, some 5, false, img0⟩] rfl rfl

/-- C6: for every nonempty, decodable, non-decreasing input sequence, the
first emitted frame has video timestamp 0 — whatever the first source
frame's absolute timestamp — and the whole emitted sequence of video
timestamps is non-decreasing. -/
theorem claim_C6 (p : Int) (hp : 0 < p) (m : Msg) (ms : List Msg)
    (hdec : ∀ x ∈ m :: ms, x.decoded.isSome = true)
    (hsorted : List.Chain' (fun a b : Int => a ≤ b)
      ((m :: ms).map Msg.t_ns)) :
    ((process_bag p (m :: ms)).rows.map Row.video_timestamp_ns).head? =
      some 0 ∧
    List.Pairwise (fun a b : Int => a ≤ b)
      ((process_bag p (m :: ms)).rows.map Row.video_timestamp_ns) := by
  obtain ⟨hrows, -, -, -⟩ := process_bag_eq p (m :: ms)
  obtain ⟨img, hm⟩ := Option.isSome_iff_exists.mp
    (hdec m (List.mem_cons_self m ms))
  have hchain : List.Chain (fun a b : Int => a ≤ b) m.t_ns
      (ms.map Msg.t_ns) := hsorted
  obtain ⟨s2, rows2, heq2, hinv2, hidx2, hfi2, hpw2, hb2⟩ :=
    run_msgs_spec p m.t_ns hp ms
      ⟨p, 1, some (m.t_ns + p), some img, some m.t_ns, true, some m.t_ns,
        some (img.height, img.width)⟩ m.t_ns
      (handle_msg_init_inv p m img)
      (fun x hx => hdec x (List.mem_cons_of_mem m hx)) hchain
  have hrun : run_msgs (init_state p) (m :: ms) =
      (s2, (⟨0, 0, some m.t_ns, false, img⟩ : Row) :: rows2, none) := by
    simp [run_msgs, handle_msg_init p m img hm, heq2]
  rw [hrows, hrun]
  constructor
  · rfl
  · simp only [List.map_cons]
    refine List.Pairwise.cons ?_ (List.pairwise_map.mpr hpw2)
    intro b hb
    obtain ⟨r, hr, hrb⟩ := List.mem_map.mp hb
    obtain ⟨hlo, -⟩ := hb2 r hr
    show (0 : Int) ≤ b
    omega

/-- C6 witness: a single frame at t=5 with period 100ms — head timestamp 0
and (trivially) sorted. -/
theorem claim_C6_witness :
    (((process_bag 100000000 [⟨some img0, 5⟩]).rows.map
      Row.video_timestamp_ns).head? = some 0) ∧
    List.Pairwise (fun a b : Int => a ≤ b)
      ((process_bag 100000000 [⟨some img0, 5⟩]).rows.map
        Row.video_timestamp_ns) :=
  claim_C6 100000000 (by norm_num) ⟨some img0, 5⟩ [] (by decide) (by simp)

/-- C7 counterexample: with a decode failure in the middle message of three,
only the first message's row is ever emitted — the valid third message is
NOT processed, contradicting "the stream continues". -/
theorem claim_C7_counterexample :
    (process_bag 100000000 [⟨some img0, 0⟩, ⟨none, 50000000⟩,
      ⟨some img1, 100000000⟩]).rows.length = 1 ∧
    (process_bag 100000000 [⟨some img0, 0⟩, ⟨none, 50000000⟩,
      ⟨some img1, 100000000⟩]).err = some Err.decode_error := by decide

/-- C7 (amended): a decode failure produces no EmittedFrame and mutates no
normalizer state (the state comes back exactly as it went in), but the
exception propagates uncaught: the reader loop stops with the error and the
remaining messages are NOT processed. -/
theorem claim_C7 (s : NState) (m : Msg) (rest : List Msg)
    (hm : m.decoded = none) :
    run_msgs s (m :: rest) = (s, [], some Err.decode_error) := by
  have hh : handle_msg s m = .error Err.decode_error := by
    obtain ⟨md, mt⟩ := m
    have hmd : md = none := hm
    subst hmd
    rfl
  simp [run_msgs, hh]

/-- C7 witness: a bag whose first message fails to decode returns the
untouched initial state, no rows, and the decode error, ignoring the valid
second message. -/
theorem claim_C7_witness :
    run_msgs (init_state 100000000) [⟨none, 0⟩, ⟨some img0, 5⟩] =
      (init_state 100000000, [], some Err.decode_error) :=
  claim_C7 (init_state 100000000) ⟨none, 0⟩ [⟨some img0, 5⟩] rfl

/-- C8 counterexample: a fatal decode error mid-stream leaves the bag with
the error raised and `closed = false` — the close/flush step never ran,
because the `handler.close()` loop sits after the reader loop with no
`try`/`finally`. -/
theorem claim_C8_counterexample :
    (process_bag 100000000 [⟨some img0, 0⟩, ⟨none, 50000000⟩]).err =
      some Err.decode_error ∧
    (process_bag 100000000 [⟨some img0, 0⟩, ⟨none, 50000000⟩]).closed =
      false := by decide

/-- C8 (amended): the sidecar and video writer are released exactly when the
stream ends normally; on a fatal mid-stream error the release step is
skipped and the error surfaces with the outputs unflushed. -/
theorem claim_C8 (p : Int) (msgs : List Msg) :
    (process_bag p msgs).closed = true ↔ (process_bag p msgs).err = none := by
  obtain ⟨-, -, herr, hclosed⟩ := process_bag_eq p msgs
  rw [herr, hclosed]
  exact Option.isNone_iff_eq_none

/-- C9 counterexample: a second frame with raster 3×4 after a first frame of
2×2 raises no error and IS emitted (two rows, no error), with the writer
still holding the first frame's geometry — no fatal stream error exists in
this code. -/
theorem claim_C9_counterexample :
    (process_bag 100000000 [⟨some img0, 0⟩, ⟨some img3, 100000000⟩]).err =
      none ∧
    (process_bag 100000000 [⟨some img0, 0⟩,
      ⟨some img3, 100000000⟩]).rows.length = 2 ∧
    (process_bag 100000000 [⟨some img0, 0⟩,
      ⟨some img3, 100000000⟩]).final.writer = some (2, 2) := by decide

/-- C9 (amended): a frame whose raster dimensions differ from the writer's
established geometry is not detected: `handle_msg` succeeds, the mismatched
frame is emitted like any other (the last emitted row carries its pixels,
as a real frame), and the writer keeps the geometry fixed at stream start —
no fatal error is raised by this code. -/
theorem claim_C9 (p v tl : Int) (gh gw : Nat) (hp : 0 < p) (s : NState)
    (m : Msg) (img : Raster) (hinv : NormInv p s v tl)
    (hw : s.writer = some (gh, gw)) (hm : m.decoded = some img)
    (hgeom : (img.height, img.width) ≠ (gh, gw)) :
    ∃ s' rows, handle_msg s m = .ok (s', rows) ∧
      s'.writer = some (gh, gw) ∧
      ∃ r, rows.getLast? = some r ∧ r.pixels = img ∧
        r.is_repeat = false := by
  obtain ⟨hfirst, hper, hstart, hsrc, ⟨f, hlast⟩, n, hnext, hn⟩ := hinv
  obtain ⟨s', frozen, heq, _, _, _, _, _, _, _, _, _, _, _, g7, _, _, _,
    _⟩ :=
    handle_msg_spec p n v tl f img hp s m hfirst hper hnext hstart hlast
      hsrc hm
  exact ⟨s', _, heq, g7 (gh, gw) hw, _, List.getLast?_concat _, rfl, rfl⟩

/-- C9 witness: the amended statement instantiated with an established 2×2
writer and an incoming 3×4 frame. -/
theorem claim_C9_witness :
    ∃ s' rows, handle_msg ⟨100000000, 1, some 100000000, some img0, some 0,
        true, some 0, some (2, 2)⟩ ⟨some img3, 150000000⟩ =
        .ok (s', rows) ∧
      s'.writer = some (2, 2) ∧
      ∃ r, rows.getLast? = some r ∧ r.pixels = img3 ∧
        r.is_repeat = false :=
  claim_C9 100000000 0 0 2 2 (by norm_num)
    ⟨100000000, 1, some 100000000, some img0, some 0, true, some 0,
      some (2, 2)⟩
    ⟨some img3, 150000000⟩ img3
    ⟨rfl, rfl, rfl, rfl, ⟨img0, rfl⟩, ⟨100000000, rfl, by norm_num⟩⟩
    rfl rfl (by decide)

/-- Pre-state under which the equal-timestamp claim is stated: either the
freshly constructed handler, or any reachable post-first state whose last
source timestamp does not exceed the incoming one. -/
def good_pre (p : Int) (s : NState) (t1 : Int) : Prop :=
  s = init_state p ∨ ∃ v tl, NormInv p s v tl ∧ tl ≤ t1

/-- C10: when two consecutively ingested frames carry equal timestamps, the
second ingest emits no repeats and exactly one real row whose video
timestamp equals that of the previous real row, under a fresh frame index —
so the sidecar can hold two rows with distinct `frame_index` and identical
`video_timestamp_ns`. -/
theorem claim_C10 (p t1 : Int) (hp : 0 < p) (s s1 s2 : NState)
    (m1 m2 : Msg) (rows1 rows2 : List Row) (imgA imgB : Raster)
    (hpre : good_pre p s t1)
    (hm1 : m1.decoded = some imgA) (ht1 : m1.t_ns = t1)
    (hm2 : m2.decoded = some imgB) (ht2 : m2.t_ns = t1)
    (h1 : handle_msg s m1 = .ok (s1, rows1))
    (h2 : handle_msg s1 m2 = .ok (s2, rows2)) :
    ∃ r2, rows2 = [r2] ∧ r2.is_repeat = false ∧
      ∃ r1, rows1.getLast? = some r1 ∧
        r1.video_timestamp_ns = r2.video_timestamp_ns ∧
        r1.frame_index ≠ r2.frame_index := by
  subst ht1
  rcases hpre with hinit | ⟨v, tl, hinv, htl⟩
  · subst hinit
    rw [handle_msg_init p m1 imgA hm1] at h1
    simp only [Except.ok.injEq, Prod.mk.injEq] at h1
    obtain ⟨hs1, hr1⟩ := h1
    subst hs1
    subst hr1
    obtain ⟨s2', frozen2, heq2, _, _, _, hhead2, hbounds2, _, _, _, _, _,
      _, _, _, _, _, _⟩ :=
      handle_msg_spec p (m1.t_ns + p) m1.t_ns m1.t_ns imgA imgB hp
        ⟨p, 1, some (m1.t_ns + p), some imgA, some m1.t_ns, true,
          some m1.t_ns, some (imgA.height, imgA.width)⟩ m2
        rfl rfl rfl rfl rfl rfl hm2
    rw [heq2] at h2
    simp only [Except.ok.injEq, Prod.mk.injEq] at h2
    obtain ⟨hs2, hr2⟩ := h2
    subst hs2
    subst hr2
    have hfz : frozen2 = [] := by
      cases hf : frozen2 with
      | nil => rfl
      | cons a l =>
        have hh := hhead2 a (by rw [hf]; rfl)
        have hb := (hbounds2 a (by rw [hf]; exact List.mem_cons_self a l)).2
        omega
    subst hfz
    refine ⟨_, rfl, rfl, _, rfl, ?_, ?_⟩
    · show (0 : Int) = m2.t_ns - m1.t_ns
      omega
    · show (0 : Nat) ≠ 1 + ([] : List Row).length
      decide
  · obtain ⟨hfirst, hper, hstart, hsrc, ⟨f, hlastf⟩, n, hnext, hn⟩ := hinv
    obtain ⟨s1', frozen1, heq1, _, _, _, _, _, k1, k2, k3, k4, k5, k6, _,
      n1, hn1, hA1, hB1⟩ :=
      handle_msg_spec p n v tl f imgA hp s m1 hfirst hper hnext hstart
        hlastf hsrc hm1
    rw [heq1] at h1
    simp only [Except.ok.injEq, Prod.mk.injEq] at h1
    obtain ⟨hs1, hr1⟩ := h1
    subst hs1
    subst hr1
    obtain ⟨s2', frozen2, heq2, _, _, _, hhead2, hbounds2, _, _, _, _, _,
      _, _, _, _, _, _⟩ :=
      handle_msg_spec p n1 v m1.t_ns imgA imgB hp s1' m2 k5 k1 hn1 k2 k3
        k4 hm2
    rw [heq2] at h2
    simp only [Except.ok.injEq, Prod.mk.injEq] at h2
    obtain ⟨hs2, hr2⟩ := h2
    subst hs2
    subst hr2
    have hfz : frozen2 = [] := by
      cases hf : frozen2 with
      | nil => rfl
      | cons a l =>
        have hh := hhead2 a (by rw [hf]; rfl)
        have hb := (hbounds2 a (by rw [hf]; exact List.mem_cons_self a l)).2
        omega
    subst hfz
    refine ⟨_, rfl, rfl, _, List.getLast?_concat _, ?_, ?_⟩
    · show m1.t_ns - v = m2.t_ns - v
      omega
    · simp only [List.length_nil, Nat.add_zero]
      omega

/-- C10 witness: two ingests of the same frame timestamp t=5 from the fresh
handler — the second emission repeats the video timestamp 0 under frame
index 1. -/
theorem claim_C10_witness :
    ∃ r2, [(⟨1, 0, some 5, false, img0⟩ : Row)] = [r2] ∧
      r2.is_repeat = false ∧
      ∃ r1, [(⟨0, 0, some 5, false, img0⟩ : Row)].getLast? = some r1 ∧
        r1.video_timestamp_ns = r2.video_timestamp_ns ∧
        r1.frame_index ≠ r2.frame_index :=
  claim_C10 100000000 5 (by norm_num) (init_state 100000000)
    ⟨100000000, 1, some 100000005, some img0, some 5, true, some 5,
      some (2, 2)⟩
    ⟨100000000, 2, some 200000005, some img0, some 5, true, some 5,
      some (2, 2)⟩
    ⟨some img0, 5⟩ ⟨some img0, 5⟩
    [⟨0, 0, some 5, false, img0⟩] [⟨1, 0, some 5, false, img0⟩]
    img0 img0 (Or.inl rfl) rfl rfl rfl rfl rfl rfl
